import Mathlib

/-!
Shallow embedding of the image-to-binary-grid conversion pipeline of
`src/crochet-pattern/src/App.jsx`, together with theorems checking the
specification's statements about it.

JavaScript numbers are modelled as rationals (`ℚ`); the flat pixel/luminance
arrays of the source are modelled as `List ℚ`, and the produced binary grids
as `List ℕ` (flat, row-major) assembled into `List (List ℕ)`.
-/

namespace Crochet

/-- Embedding of `applyContrastBrightness` (App.jsx lines 350-358), acting on a
single channel value: `Math.min(255, Math.max(0, (v - 128) * c + 128 + b))`
with `c = contrast / 100` and `b = (brightness - 100) * 2.55`. -/
def applyContrastBrightness (contrast brightness v : ℚ) : ℚ :=
  min 255 (max 0 ((v - 128) * (contrast / 100) + 128 + (brightness - 100) * 2.55))

/-- Embedding of `getGrayscale` (App.jsx line 360): BT.601 luma. -/
def getGrayscale (r g b : ℚ) : ℚ := 0.299 * r + 0.587 * g + 0.114 * b

/-- Embedding of the `default` case of the `switch` in `generatePattern`
(App.jsx lines 502-503): `result = gray.map(g => g < threshold ? 1 : 0)`. -/
def simplePattern (threshold : ℚ) (gray : List ℚ) : List ℕ :=
  gray.map (fun g => if g < threshold then 1 else 0)

/-- Embedding of the inversion step (App.jsx line 506):
`if (invertColors) result = result.map(v => 1 - v)`. -/
def applyInvert (invertColors : Bool) (result : List ℕ) : List ℕ :=
  if invertColors then result.map (fun v => 1 - v) else result

/-- Embedding of the assembly step (App.jsx lines 508-511):
`pat.push(result.slice(y * gridWidth, (y + 1) * gridWidth))` for each row `y`. -/
def assemble (w h : ℕ) (result : List ℕ) : List (List ℕ) :=
  (List.range h).map (fun y => (result.drop (y * w)).take w)

/-- Embedding of the fixed Bayer matrix (App.jsx line 455). -/
def bayer : List (List ℚ) := [[0,8,2,10],[12,4,14,6],[3,11,1,9],[15,7,13,5]]

/-- Per-cell local threshold of the `ordered` case (App.jsx line 458):
`threshold + (bayer[y % 4][x % 4] / 16 - 0.5) * 128 * (ditherStrength / 100)`. -/
def orderedLocalThreshold (threshold ditherStrength : ℚ) (x y : ℕ) : ℚ :=
  threshold + ((bayer.getD (y % 4) []).getD (x % 4) 0 / 16 - 0.5) * 128 * (ditherStrength / 100)

/-- Embedding of the `ordered` case of `generatePattern` (App.jsx lines 454-461):
`gray.map((g, i) => ...)` with `x = i % gridWidth`, `y = floor(i / gridWidth)`. -/
def orderedPattern (w : ℕ) (threshold ditherStrength : ℚ) (gray : List ℚ) : List ℕ :=
  gray.mapIdx (fun i g =>
    if g < orderedLocalThreshold threshold ditherStrength (i % w) (i / w) then 1 else 0)

/-- Claim C1: simple threshold emits 1 exactly on luminances strictly below the
threshold; on a 4×4 uniform field of 128 with threshold 128 every cell is 0
without inversion and 1 with inversion. -/
theorem simpleThreshold_iff_and_uniform :
    (∀ (threshold : ℚ) (gray : List ℚ) (i : ℕ), i < gray.length →
      ((simplePattern threshold gray).getD i 0 = 1 ↔ gray.getD i 0 < threshold))
    ∧ assemble 4 4 (applyInvert false (simplePattern 128 (List.replicate 16 (128 : ℚ))))
        = List.replicate 4 (List.replicate 4 0)
    ∧ assemble 4 4 (applyInvert true (simplePattern 128 (List.replicate 16 (128 : ℚ))))
        = List.replicate 4 (List.replicate 4 1) := by
  refine ⟨?_, by decide, by decide⟩
  intro t gray i hi
  have : (simplePattern t gray).getD i 0
      = (if gray.getD i 0 < t then 1 else 0) := by
    unfold simplePattern
    rw [List.getD_eq_getElem?_getD, List.getElem?_map,
      List.getElem?_eq_getElem hi]
    simp [List.getD_eq_getElem?_getD, List.getElem?_eq_getElem hi]
  rw [this]
  split <;> simp_all

/-- Witness for `simpleThreshold_iff_and_uniform` at a concrete field. -/
theorem simpleThreshold_iff_and_uniform_w :
    (simplePattern 128 [(100 : ℚ), 200]).getD 0 0 = 1 ↔ ([(100 : ℚ), 200].getD 0 0 < 128) :=
  simpleThreshold_iff_and_uniform.1 128 [(100 : ℚ), 200] 0 (by decide)

/-- Claim C2: the tone adjuster computes `clamp(0,255,(v-128)*(contrast/100)+128+(brightness-100)*2.55)`
per channel, and at `contrast = 100`, `brightness = 100` it is the identity on `[0,255]`. -/
theorem applyContrastBrightness_formula_and_identity :
    (∀ contrast brightness v : ℚ, applyContrastBrightness contrast brightness v
      = min 255 (max 0 ((v - 128) * (contrast / 100) + 128 + (brightness - 100) * 2.55)))
    ∧ (∀ v : ℚ, 0 ≤ v → v ≤ 255 → applyContrastBrightness 100 100 v = v) := by
  constructor
  · intro c b v; rfl
  · intro v h0 h255
    unfold applyContrastBrightness
    have h1 : (v - 128) * ((100 : ℚ) / 100) + 128 + ((100 : ℚ) - 100) * 2.55 = v := by ring
    rw [h1, max_eq_right h0, min_eq_right h255]

/-- Witness for `applyContrastBrightness_formula_and_identity` at `v = 37`. -/
theorem applyContrastBrightness_formula_and_identity_w :
    applyContrastBrightness 100 100 37 = 37 :=
  applyContrastBrightness_formula_and_identity.2 37 (by norm_num) (by norm_num)

/-- Claim C6: with `ditherStrength = 0` the Bayer offset vanishes, and ordered
dithering computes exactly the simple-threshold pattern, for every width,
threshold and luminance field. -/
theorem orderedPattern_strength_zero (w : ℕ) (threshold : ℚ) (gray : List ℚ) :
    orderedPattern w threshold 0 gray = simplePattern threshold gray := by
  unfold orderedPattern simplePattern
  have hth : ∀ x y : ℕ, orderedLocalThreshold threshold 0 x y = threshold := by
    intro x y
    unfold orderedLocalThreshold
    ring
  rw [List.mapIdx_eq_enum_map]
  have hfe : (Function.uncurry fun i g =>
      if g < orderedLocalThreshold threshold 0 (i % w) (i / w) then (1 : ℕ) else 0)
      = (fun g : ℚ => if g < threshold then 1 else 0) ∘ Prod.snd := by
    funext p
    simp [Function.uncurry, hth]
  rw [hfe, ← List.map_map, List.enum_map_snd]

/-- Helper modelling the JavaScript `arr[i] += q` on a flat error buffer. -/
def addAt (l : List ℚ) (i : ℕ) (q : ℚ) : List ℚ := l.set i (l.getD i 0 + q)

/-- Adding `q` at an in-bounds index raises the buffer's total by exactly `q`. -/
theorem addAt_sum (q : ℚ) : ∀ (l : List ℚ) (i : ℕ), i < l.length →
    (addAt l i q).sum = l.sum + q := by
  intro l
  induction l with
  | nil => intro i hi; simp at hi
  | cons a t ih =>
    intro i hi
    cases i with
    | zero => simp [addAt, List.getD]; ring
    | succ j =>
      have hj : j < t.length := by simpa using hi
      have := ih j hj
      simp only [addAt, List.set, List.getD_cons_succ, List.sum_cons] at *
      rw [this]; ring

/-- Setting an element keeps the buffer length, stated for `addAt`. -/
theorem addAt_length (l : List ℚ) (i : ℕ) (q : ℚ) : (addAt l i q).length = l.length := by
  simp [addAt]

/-- Embedding of the loop body of the `floydSteinberg` case of `generatePattern`
(App.jsx lines 416-429), acting on the state (error buffer, emitted bits):
quantize `err[idx]` against `threshold`, push the bit, and spread the scaled
quantization error with weights 7/16, 3/16, 5/16, 1/16 to the in-bounds
neighbors. -/
def fsStep (w h : ℕ) (threshold strength : ℚ) (x y : ℕ) (st : List ℚ × List ℕ) :
    List ℚ × List ℕ :=
  let err := st.1
  let idx := y * w + x
  let old := err.getD idx 0
  let newVal : ℚ := if old < threshold then 0 else 255
  let bit : ℕ := if newVal = 0 then 1 else 0
  let quant := (old - newVal) * strength
  let err1 := if x + 1 < w then addAt err (idx + 1) (quant * 7 / 16) else err
  let err2 :=
    if y + 1 < h then
      let e1 := if 0 < x then addAt err1 (idx + w - 1) (quant * 3 / 16) else err1
      let e2 := addAt e1 (idx + w) (quant * 5 / 16)
      if x + 1 < w then addAt e2 (idx + w + 1) (quant * 1 / 16) else e2
    else err1
  (err2, st.2 ++ [bit])

/-- Embedding of the full `floydSteinberg` case (App.jsx lines 414-431):
row-major nested loops threading the error buffer, seeded with a copy of the
luminance field (`const err = [...gray]`). -/
def fsPattern (w h : ℕ) (threshold strength : ℚ) (gray : List ℚ) : List ℕ :=
  ((List.range h).foldl (fun st y =>
    (List.range w).foldl (fun st x => fsStep w h threshold strength x y st) st)
    (gray, [])).2

/-- Embedding of the loop body of the `atkinson` case of `generatePattern`
(App.jsx lines 435-450): same quantization, error unit `quant / 8`, spread
equally to right, right+2, below-left, below, below-right and two-below. -/
def atkinsonStep (w h : ℕ) (threshold strength : ℚ) (x y : ℕ) (st : List ℚ × List ℕ) :
    List ℚ × List ℕ :=
  let err := st.1
  let idx := y * w + x
  let old := err.getD idx 0
  let newVal : ℚ := if old < threshold then 0 else 255
  let bit : ℕ := if newVal = 0 then 1 else 0
  let quant := (old - newVal) * strength / 8
  let e1 := if x + 1 < w then addAt err (idx + 1) quant else err
  let e2 := if x + 2 < w then addAt e1 (idx + 2) quant else e1
  let e3 :=
    if y + 1 < h then
      let a := if 0 < x then addAt e2 (idx + w - 1) quant else e2
      let b := addAt a (idx + w) quant
      if x + 1 < w then addAt b (idx + w + 1) quant else b
    else e2
  let e4 := if y + 2 < h then addAt e3 (idx + w * 2) quant else e3
  (e4, st.2 ++ [bit])

/-- Embedding of the full `atkinson` case (App.jsx lines 433-452). -/
def atkinsonPattern (w h : ℕ) (threshold strength : ℚ) (gray : List ℚ) : List ℕ :=
  ((List.range h).foldl (fun st y =>
    (List.range w).foldl (fun st x => atkinsonStep w h threshold strength x y st) st)
    (gray, [])).2

/-- Claim C4: a Floyd–Steinberg step emits 1 exactly when the accumulated value is
strictly below the threshold, and at `ditherStrength = 100` (strength 1) an
interior cell (right, below-left, below and below-right neighbors all in
bounds) passes on exactly `old - newVal` of error in total. -/
theorem fsStep_conservation (w h : ℕ) (threshold : ℚ) (x y : ℕ) (err : List ℚ)
    (res : List ℕ) (hlen : err.length = w * h) (hx1 : x + 1 < w) (hx0 : 0 < x)
    (hy : y + 1 < h) :
    (fsStep w h threshold 1 x y (err, res)).1.sum
      = err.sum + (err.getD (y * w + x) 0
          - (if err.getD (y * w + x) 0 < threshold then 0 else 255))
    ∧ (fsStep w h threshold 1 x y (err, res)).2
      = res ++ [if err.getD (y * w + x) 0 < threshold then 1 else 0] := by
  have hw : 0 < w := lt_trans (Nat.zero_lt_succ x) hx1
  have hb : y * w + x + w + 1 < w * h := by
    have h1 : y * w + x + w + 1 < y * w + w + w := by omega
    have h2 : y * w + w + w = (y + 2) * w := by ring
    have h3 : (y + 2) * w ≤ h * w := Nat.mul_le_mul_right w (by omega)
    calc y * w + x + w + 1 < (y + 2) * w := h2 ▸ h1
      _ ≤ h * w := h3
      _ = w * h := Nat.mul_comm h w
  have hb1 : y * w + x + 1 < w * h := by omega
  have hbm : y * w + x + w - 1 < w * h := by omega
  have hbw : y * w + x + w < w * h := by omega
  constructor
  · show (if y + 1 < h then _ else _ : List ℚ).sum = _
    rw [if_pos hy, if_pos hx1, if_pos hx1, if_pos hx0]
    rw [addAt_sum _ _ _ (by
      rw [addAt_length, addAt_length, addAt_length, hlen]; exact hb)]
    rw [addAt_sum _ _ _ (by rw [addAt_length, addAt_length, hlen]; exact hbw)]
    rw [addAt_sum _ _ _ (by rw [addAt_length, hlen]; exact hbm)]
    rw [addAt_sum _ _ _ (by rw [hlen]; exact hb1)]
    ring
  · show (_, res ++ [_]).2 = _
    have : (if (if err.getD (y * w + x) 0 < threshold then (0 : ℚ) else 255) = 0
        then (1 : ℕ) else 0) = (if err.getD (y * w + x) 0 < threshold then 1 else 0) := by
      split <;> simp_all
    simp only [this]

/-- Witness for `fsStep_conservation` on a concrete 3×3 buffer. -/
theorem fsStep_conservation_w :
    (fsStep 3 3 128 1 1 1 (List.replicate 9 (100 : ℚ), [])).1.sum
      = (List.replicate 9 (100 : ℚ)).sum + ((List.replicate 9 (100 : ℚ)).getD 4 0
          - (if (List.replicate 9 (100 : ℚ)).getD 4 0 < 128 then 0 else 255)) :=
  (fsStep_conservation 3 3 128 1 1 (List.replicate 9 (100 : ℚ)) []
    (by decide) (by decide) (by decide) (by decide)).1

/-- Claim C5: an Atkinson step emits the same bit as Floyd–Steinberg, and a cell with
all six recipient neighbors in bounds passes on `6/8` of the scaled
quantization error in total (two eighths are discarded). -/
theorem atkinsonStep_six_eighths (w h : ℕ) (threshold strength : ℚ) (x y : ℕ)
    (err : List ℚ) (res : List ℕ) (hlen : err.length = w * h) (hx2 : x + 2 < w)
    (hx0 : 0 < x) (hy : y + 2 < h) :
    (atkinsonStep w h threshold strength x y (err, res)).1.sum
      = err.sum + 6 / 8 * ((err.getD (y * w + x) 0
          - (if err.getD (y * w + x) 0 < threshold then 0 else 255)) * strength)
    ∧ (atkinsonStep w h threshold strength x y (err, res)).2
      = (fsStep w h threshold strength x y (err, res)).2 := by
  have hx1 : x + 1 < w := by omega
  have hy1 : y + 1 < h := by omega
  have hb2 : y * w + x + w * 2 < w * h := by
    have h1 : y * w + x + w * 2 < y * w + w + w * 2 := by omega
    have h2 : y * w + w + w * 2 = (y + 3) * w := by ring
    have h3 : (y + 3) * w ≤ h * w := Nat.mul_le_mul_right w (by omega)
    calc y * w + x + w * 2 < (y + 3) * w := h2 ▸ h1
      _ ≤ h * w := h3
      _ = w * h := Nat.mul_comm h w
  have hb1 : y * w + x + 1 < w * h := by omega
  have hbp2 : y * w + x + 2 < w * h := by omega
  have hbm : y * w + x + w - 1 < w * h := by omega
  have hbw : y * w + x + w < w * h := by omega
  have hbr : y * w + x + w + 1 < w * h := by omega
  constructor
  · show (if y + 2 < h then _ else _ : List ℚ).sum = _
    rw [if_pos hy, if_pos hy1, if_pos hx1, if_pos hx2, if_pos hx1, if_pos hx0]
    rw [addAt_sum _ _ _ (by
      rw [addAt_length, addAt_length, addAt_length, addAt_length, addAt_length, hlen]
      exact hb2)]
    rw [addAt_sum _ _ _ (by
      rw [addAt_length, addAt_length, addAt_length, addAt_length, hlen]; exact hbr)]
    rw [addAt_sum _ _ _ (by rw [addAt_length, addAt_length, addAt_length, hlen]; exact hbw)]
    rw [addAt_sum _ _ _ (by rw [addAt_length, addAt_length, hlen]; exact hbm)]
    rw [addAt_sum _ _ _ (by rw [addAt_length, hlen]; exact hbp2)]
    rw [addAt_sum _ _ _ (by rw [hlen]; exact hb1)]
    ring
  · rfl

/-- Witness for `atkinsonStep_six_eighths` on a concrete 4×4 buffer. -/
theorem atkinsonStep_six_eighths_w :
    (atkinsonStep 4 4 128 1 1 1 (List.replicate 16 (200 : ℚ), [])).1.sum
      = (List.replicate 16 (200 : ℚ)).sum + 6 / 8 * (((List.replicate 16 (200 : ℚ)).getD 5 0
          - (if (List.replicate 16 (200 : ℚ)).getD 5 0 < 128 then 0 else 255)) * 1) :=
  (atkinsonStep_six_eighths 4 4 128 1 1 1 (List.replicate 16 (200 : ℚ)) []
    (by decide) (by decide) (by decide) (by decide)).1

/-- Horizontal Sobel response at flat index `i` (App.jsx line 472); for the
interior cells where it is used, the `ℕ` index arithmetic is exact. -/
def sobelGx (gray : List ℚ) (w i : ℕ) : ℚ :=
  -(gray.getD (i - w - 1) 0) + gray.getD (i - w + 1) 0 - 2 * gray.getD (i - 1) 0
    + 2 * gray.getD (i + 1) 0 - gray.getD (i + w - 1) 0 + gray.getD (i + w + 1) 0

/-- Vertical Sobel response at flat index `i` (App.jsx line 473). -/
def sobelGy (gray : List ℚ) (w i : ℕ) : ℚ :=
  -(gray.getD (i - w - 1) 0) - 2 * gray.getD (i - w) 0 - gray.getD (i - w + 1) 0
    + gray.getD (i + w - 1) 0 + 2 * gray.getD (i + w) 0 + gray.getD (i + w + 1) 0

/-- Rational characterization of the source's `Math.sqrt(v) > s` comparison
(App.jsx lines 474-475): for `0 ≤ v` it holds exactly when `s < 0` or
`s * s < v`; the equivalence with `Real.sqrt` is `magGT_iff_sqrt`. -/
def magGT (v s : ℚ) : Bool := decide (s < 0) || decide (s * s < v)

/-- Equivalence of `magGT` with the real square-root comparison it models. -/
theorem magGT_iff_sqrt (v s : ℚ) :
    magGT v s = true ↔ (s : ℝ) < Real.sqrt v := by
  unfold magGT
  by_cases hs : s < 0
  · constructor
    · intro _
      calc (s : ℝ) < 0 := by exact_mod_cast hs
        _ ≤ Real.sqrt v := Real.sqrt_nonneg _
    · intro _
      simp [hs]
  · push_neg at hs
    have hs' : (0 : ℝ) ≤ (s : ℝ) := by exact_mod_cast hs
    rw [Real.lt_sqrt hs']
    simp only [decide_eq_true_eq, Bool.or_eq_true]
    constructor
    · rintro (h | h)
      · exact absurd h (not_lt.mpr hs)
      · have : ((s * s : ℚ) : ℝ) < ((v : ℚ) : ℝ) := by exact_mod_cast h
        calc (s : ℝ) ^ 2 = ((s * s : ℚ) : ℝ) := by push_cast; ring
          _ < v := this
    · intro h
      refine Or.inr ?_
      have : ((s * s : ℚ) : ℝ) < ((v : ℚ) : ℝ) := by
        calc ((s * s : ℚ) : ℝ) = (s : ℝ) ^ 2 := by push_cast; ring
          _ < v := h
      exact_mod_cast this

/-- Per-cell decision of the `sobel` case (App.jsx lines 465-476): border cells
are 0, interior cells compare the gradient magnitude against `sens`. -/
def sobelCell (w h : ℕ) (sens : ℚ) (gray : List ℚ) (x y : ℕ) : ℕ :=
  if x = 0 ∨ x = w - 1 ∨ y = 0 ∨ y = h - 1 then 0
  else
    let i := y * w + x
    if magGT (sobelGx gray w i * sobelGx gray w i + sobelGy gray w i * sobelGy gray w i)
        sens then 1 else 0

/-- Embedding of the `sobel` case of `generatePattern` (App.jsx lines 463-478),
with `sens = edgeSensitivity * 2` computed once before the loops. -/
def sobelPattern (w h : ℕ) (edgeSensitivity : ℚ) (gray : List ℚ) : List ℕ :=
  (List.range h).flatMap (fun y =>
    (List.range w).map (fun x => sobelCell w h (edgeSensitivity * 2) gray x y))

/-- Indexing a row-major grid built from nested loops: the flat entry at
`y * w + x` is the cell function at `(x, y)`. -/
theorem grid_getD {α : Type} (f : ℕ → ℕ → α) (w : ℕ) (d : α) :
    ∀ (h x y : ℕ), x < w → y < h →
      ((List.range h).flatMap (fun y => (List.range w).map (fun x => f x y))).getD
        (y * w + x) d = f x y := by
  intro h
  induction h with
  | zero => intro x y _ hy; omega
  | succ n ih =>
    intro x y hx hy
    rw [List.range_succ, List.flatMap_append]
    have hlenA : ((List.range n).flatMap
        (fun y => (List.range w).map (fun x => f x y))).length = n * w := by
      rw [List.length_flatMap]
      simp only [Function.comp_def, List.length_map, List.length_range]
      rw [List.map_const', List.length_range, List.sum_replicate, smul_eq_mul]
    by_cases hyn : y < n
    · have hidx : y * w + x < n * w := by
        have : y * w + x < (y + 1) * w := by nlinarith
        have h2 : (y + 1) * w ≤ n * w := Nat.mul_le_mul_right w hyn
        omega
      rw [List.getD_append _ _ _ _ (by rw [hlenA]; exact hidx)]
      exact ih x y hx hyn
    · have hyeq : y = n := by omega
      subst hyeq
      rw [List.getD_eq_getElem?_getD, List.getElem?_append]
      rw [if_neg (by rw [hlenA]; omega)]
      rw [hlenA]
      have hsub : y * w + x - y * w = x := by omega
      rw [hsub]
      simp only [List.flatMap_cons, List.flatMap_nil, List.append_nil]
      rw [List.getElem?_map, List.getElem?_range hx]
      rfl

/-- Claim C7: every border cell of the Sobel output is 0 for every field and
sensitivity, and an interior cell is 1 exactly when the gradient magnitude
`sqrt(gx² + gy²)` strictly exceeds `edgeSensitivity * 2`. -/
theorem sobelPattern_border_and_interior (w h : ℕ) (edgeSensitivity : ℚ)
    (gray : List ℚ) :
    (∀ x y : ℕ, x < w → y < h → (x = 0 ∨ x = w - 1 ∨ y = 0 ∨ y = h - 1) →
      (sobelPattern w h edgeSensitivity gray).getD (y * w + x) 0 = 0)
    ∧ (∀ x y : ℕ, x < w → y < h →
        x ≠ 0 → x ≠ w - 1 → y ≠ 0 → y ≠ h - 1 →
        ((sobelPattern w h edgeSensitivity gray).getD (y * w + x) 0 = 1 ↔
          ((edgeSensitivity : ℝ) * 2 < Real.sqrt
            ((sobelGx gray w (y * w + x) : ℝ) ^ 2
              + (sobelGy gray w (y * w + x) : ℝ) ^ 2)))) := by
  constructor
  · intro x y hx hy hborder
    unfold sobelPattern
    rw [grid_getD _ w _ h x y hx hy]
    unfold sobelCell
    rw [if_pos hborder]
  · intro x y hx hy hx0 hxw hy0 hyh
    unfold sobelPattern
    rw [grid_getD _ w _ h x y hx hy]
    unfold sobelCell
    rw [if_neg (by push_neg; exact ⟨hx0, hxw, hy0, hyh⟩)]
    set gx := sobelGx gray w (y * w + x) with hgx
    set gy := sobelGy gray w (y * w + x) with hgy
    have hiff := magGT_iff_sqrt (gx * gx + gy * gy) (edgeSensitivity * 2)
    have hcast : ((gx * gx + gy * gy : ℚ) : ℝ) = (gx : ℝ) ^ 2 + (gy : ℝ) ^ 2 := by
      push_cast; ring
    have hcast2 : ((edgeSensitivity * 2 : ℚ) : ℝ) = (edgeSensitivity : ℝ) * 2 := by
      push_cast; ring
    rw [hcast, hcast2] at hiff
    constructor
    · intro h1
      apply hiff.mp
      by_contra hfalse
      rw [if_neg (by simpa using hfalse)] at h1
      exact absurd h1 (by norm_num)
    · intro hlt
      rw [if_pos (hiff.mpr hlt)]

/-- Witness for `sobelPattern_border_and_interior`: border cell of a 3×3 grid. -/
theorem sobelPattern_border_and_interior_w :
    (sobelPattern 3 3 10 (List.replicate 9 (50 : ℚ))).getD (0 * 3 + 0) 0 = 0 :=
  (sobelPattern_border_and_interior 3 3 10 (List.replicate 9 (50 : ℚ))).1 0 0
    (by decide) (by decide) (Or.inl rfl)

/-- Embedding of `const bs = Math.max(3, adaptiveBlockSize | 1)` (App.jsx line
481): bitwise-or with 1 forces the block size odd. -/
def adaptiveBs (adaptiveBlockSize : ℕ) : ℕ := max 3 (adaptiveBlockSize ||| 1)

/-- Offsets `-half .. half` scanned by the adaptive neighborhood loops
(App.jsx lines 486-487), in ascending order. -/
def neighborhoodOffsets (half : ℕ) : List ℤ :=
  (List.range (2 * half + 1)).map (fun d : ℕ => (d : ℤ) - half)

/-- All `(dy, dx)` pairs visited by the nested neighborhood loops. -/
def neighborPairs (half : ℕ) : List (ℤ × ℤ) :=
  (neighborhoodOffsets half).flatMap (fun dy =>
    (neighborhoodOffsets half).map (fun dx => (dy, dx)))

/-- Bounds check of App.jsx line 489: `ny >= 0 && ny < gridHeight && nx >= 0
&& nx < gridWidth` for `ny = y + dy`, `nx = x + dx`. -/
def inGrid (w h x y : ℕ) (p : ℤ × ℤ) : Bool :=
  decide (0 ≤ (y : ℤ) + p.1) && decide ((y : ℤ) + p.1 < (h : ℤ)) &&
  decide (0 ≤ (x : ℤ) + p.2) && decide ((x : ℤ) + p.2 < (w : ℤ))

/-- Luminance read `gray[ny * gridWidth + nx]` (App.jsx line 490). -/
def neighborValue (w : ℕ) (gray : List ℚ) (x y : ℕ) (p : ℤ × ℤ) : ℚ :=
  gray.getD ((((y : ℤ) + p.1) * w + ((x : ℤ) + p.2)).toNat) 0

/-- Per-cell decision of the `adaptive` case (App.jsx lines 484-497): average
the in-bounds neighborhood and compare against `localMean - (threshold-128)/4`. -/
def adaptiveCell (w h : ℕ) (threshold : ℚ) (gray : List ℚ) (half x y : ℕ) : ℕ :=
  if gray.getD (y * w + x) 0 <
      (((neighborPairs half).filter (inGrid w h x y)).map (neighborValue w gray x y)).sum /
        ((((neighborPairs half).filter (inGrid w h x y)).length : ℕ) : ℚ)
      - (threshold - 128) / 4
  then 1 else 0

/-- Embedding of the `adaptive` case of `generatePattern` (App.jsx lines
480-500), with `half = Math.floor(bs / 2)` computed from the forced-odd block
size. -/
def adaptivePattern (w h : ℕ) (threshold : ℚ) (adaptiveBlockSize : ℕ)
    (gray : List ℚ) : List ℕ :=
  (List.range h).flatMap (fun y => (List.range w).map (fun x =>
    adaptiveCell w h threshold gray (adaptiveBs adaptiveBlockSize / 2) x y))

/-- Statement of the spec's clipped square neighborhood, independent of the
loop structure: offsets drawn from the centered square, filtered to the grid. -/
def specNeighborhood (w h half x y : ℕ) : Finset (ℤ × ℤ) :=
  (Finset.Icc (-(half : ℤ)) half ×ˢ Finset.Icc (-(half : ℤ)) half).filter
    (fun p => 0 ≤ (y : ℤ) + p.1 ∧ (y : ℤ) + p.1 < (h : ℤ) ∧
      0 ≤ (x : ℤ) + p.2 ∧ (x : ℤ) + p.2 < (w : ℤ))

/-- Statement of the spec's local mean: neighborhood sum over neighborhood
size. -/
def specLocalMean (w h : ℕ) (gray : List ℚ) (half x y : ℕ) : ℚ :=
  (∑ p ∈ specNeighborhood w h half x y, neighborValue w gray x y p) /
    ((specNeighborhood w h half x y).card : ℚ)

/-- Bitwise-or with 1 adds one to an even number. -/
theorem lor_one_even (n : ℕ) (h : n % 2 = 0) : n ||| 1 = n + 1 := by
  apply Nat.eq_of_testBit_eq
  intro i
  cases i with
  | zero =>
    rw [Nat.testBit_or]
    simp [Nat.testBit_zero]
    omega
  | succ j =>
    rw [Nat.testBit_or, Nat.testBit_add_one 1 j, Nat.testBit_add_one (n + 1) j,
      Nat.testBit_add_one n j]
    norm_num
    congr 1
    omega

/-- Bitwise-or with 1 fixes an odd number. -/
theorem lor_one_odd (n : ℕ) (h : n % 2 = 1) : n ||| 1 = n := by
  apply Nat.eq_of_testBit_eq
  intro i
  cases i with
  | zero => simp [Nat.testBit_or, Nat.testBit_zero]; omega
  | succ j =>
    rw [Nat.testBit_or, Nat.testBit_add_one 1 j]
    norm_num

/-- Sum of a mapped range list as a `Finset.range` sum. -/
theorem list_range_map_sum {M : Type} [AddCommMonoid M] (f : ℕ → M) :
    ∀ n, ((List.range n).map f).sum = ∑ i ∈ Finset.range n, f i := by
  intro n
  induction n with
  | zero => simp
  | succ k ih =>
    rw [List.range_succ, List.map_append, List.sum_append, Finset.sum_range_succ, ih]
    simp

/-- The centered integer interval is the shifted range. -/
theorem Icc_eq_map_range (half : ℕ) : Finset.Icc (-(half : ℤ)) half
    = (Finset.range (2 * half + 1)).map
        ⟨fun i : ℕ => (i : ℤ) - half, fun a b hab => by dsimp at hab; omega⟩ := by
  ext x
  simp only [Finset.mem_Icc, Finset.mem_map, Finset.mem_range, Function.Embedding.coeFn_mk]
  constructor
  · rintro ⟨h1, h2⟩
    exact ⟨(x + half).toNat, by omega, by omega⟩
  · rintro ⟨a, ha, rfl⟩
    omega

/-- Mapping then summing over a `flatMap` sums the inner sums. -/
theorem flatMap_map_sum {α β M : Type} [AddCommMonoid M] (f : α → List β) (g : β → M) :
    ∀ l : List α, ((l.flatMap f).map g).sum = (l.map (fun a => ((f a).map g).sum)).sum := by
  intro l
  induction l with
  | nil => rfl
  | cons a t ih => simp [List.flatMap_cons, List.map_append, List.sum_append, ih]

/-- Summing over a filtered list as an indicator sum over the full list. -/
theorem filter_map_sum {α M : Type} [AddCommMonoid M] (p : α → Bool) (g : α → M) :
    ∀ l : List α, ((l.filter p).map g).sum
      = (l.map (fun a => if p a then g a else 0)).sum := by
  intro l
  induction l with
  | nil => rfl
  | cons a t ih =>
    by_cases hpa : p a
    · rw [List.filter_cons_of_pos hpa]
      simp [hpa, ih]
    · rw [List.filter_cons_of_neg hpa]
      simp [hpa, ih]

/-- Length of a filtered list as an indicator sum over the full list. -/
theorem filter_length_sum {α : Type} (p : α → Bool) :
    ∀ l : List α, (l.filter p).length
      = (l.map (fun a => if p a then (1 : ℕ) else 0)).sum := by
  intro l
  induction l with
  | nil => rfl
  | cons a t ih =>
    by_cases hpa : p a
    · rw [List.filter_cons_of_pos hpa]
      simp [hpa, ih]
      omega
    · rw [List.filter_cons_of_neg hpa]
      simp [hpa, ih]

/-- The offset list sums like the centered interval. -/
theorem offsets_map_sum {M : Type} [AddCommMonoid M] (half : ℕ) (F : ℤ → M) :
    ((neighborhoodOffsets half).map F).sum = ∑ d ∈ Finset.Icc (-(half : ℤ)) half, F d := by
  have h1 : ((neighborhoodOffsets half).map F)
      = (List.range (2 * half + 1)).map (fun i : ℕ => F ((i : ℤ) - half)) := by
    unfold neighborhoodOffsets
    rw [List.map_map]
    rfl
  rw [h1, list_range_map_sum, Icc_eq_map_range, Finset.sum_map]
  apply Finset.sum_congr rfl
  intro i _
  rfl

/-- The visited pair list sums like the product of centered intervals. -/
theorem neighborPairs_map_sum {M : Type} [AddCommMonoid M] (half : ℕ) (G : ℤ × ℤ → M) :
    ((neighborPairs half).map G).sum
      = ∑ p ∈ Finset.Icc (-(half : ℤ)) half ×ˢ Finset.Icc (-(half : ℤ)) half, G p := by
  rw [Finset.sum_product]
  unfold neighborPairs
  rw [flatMap_map_sum]
  have hrow : ((neighborhoodOffsets half).map (fun dy =>
      (((neighborhoodOffsets half).map (fun dx => (dy, dx))).map G).sum))
      = ((neighborhoodOffsets half).map (fun dy =>
        ∑ dx ∈ Finset.Icc (-(half : ℤ)) half, G (dy, dx))) := by
    apply List.map_congr_left
    intro dy _
    rw [List.map_map]
    exact offsets_map_sum half (fun dx => G (dy, dx))
  rw [hrow, offsets_map_sum]

/-- Bool bounds check agrees with the spec neighborhood membership predicate. -/
theorem inGrid_iff (w h x y : ℕ) (p : ℤ × ℤ) :
    inGrid w h x y p = true ↔
      (0 ≤ (y : ℤ) + p.1 ∧ (y : ℤ) + p.1 < (h : ℤ) ∧
        0 ≤ (x : ℤ) + p.2 ∧ (x : ℤ) + p.2 < (w : ℤ)) := by
  unfold inGrid
  simp [Bool.and_eq_true, decide_eq_true_eq, and_assoc]

/-- The loop-accumulated neighborhood sum equals the spec neighborhood sum. -/
theorem adaptive_sum_spec (w h half x y : ℕ) (gray : List ℚ) :
    (((neighborPairs half).filter (inGrid w h x y)).map (neighborValue w gray x y)).sum
      = ∑ p ∈ specNeighborhood w h half x y, neighborValue w gray x y p := by
  rw [filter_map_sum, neighborPairs_map_sum]
  unfold specNeighborhood
  rw [Finset.sum_filter]
  apply Finset.sum_congr rfl
  intro p _
  exact if_congr (inGrid_iff w h x y p) rfl rfl

/-- The loop-accumulated neighborhood count equals the spec neighborhood size. -/
theorem adaptive_count_spec (w h half x y : ℕ) :
    ((neighborPairs half).filter (inGrid w h x y)).length
      = (specNeighborhood w h half x y).card := by
  rw [filter_length_sum, neighborPairs_map_sum]
  unfold specNeighborhood
  rw [Finset.card_filter]
  apply Finset.sum_congr rfl
  intro p _
  exact if_congr (inGrid_iff w h x y p) rfl rfl

/-- Claim C8: an even block size is forced odd by adding 1 (odd sizes are kept), and
each cell of the adaptive output is 1 exactly when its luminance is strictly
below the clipped-neighborhood mean minus `(threshold - 128) / 4`. -/
theorem adaptivePattern_localMean (w h bsParam : ℕ) (threshold : ℚ) (gray : List ℚ) :
    (∀ m : ℕ, 3 ≤ m → adaptiveBs m = if m % 2 = 0 then m + 1 else m)
    ∧ (∀ x y : ℕ, x < w → y < h →
        ((adaptivePattern w h threshold bsParam gray).getD (y * w + x) 0 = 1 ↔
          gray.getD (y * w + x) 0
            < specLocalMean w h gray (adaptiveBs bsParam / 2) x y
              - (threshold - 128) / 4)) := by
  constructor
  · intro m hm
    unfold adaptiveBs
    by_cases hpar : m % 2 = 0
    · rw [if_pos hpar, lor_one_even m hpar]
      omega
    · rw [if_neg hpar, lor_one_odd m (by omega)]
      omega
  · intro x y hx hy
    unfold adaptivePattern
    rw [grid_getD _ w _ h x y hx hy]
    unfold adaptiveCell
    rw [adaptive_sum_spec, adaptive_count_spec]
    unfold specLocalMean
    split <;> simp_all

/-- Witness for `adaptivePattern_localMean`: forced-odd block size at 4. -/
theorem adaptivePattern_localMean_w :
    adaptiveBs 4 = if 4 % 2 = 0 then 4 + 1 else 4 :=
  (adaptivePattern_localMean 1 1 4 128 [(0 : ℚ)]).1 4 (by decide)

/-- JavaScript `Math.round` on the nonnegative luminance range: `⌊v + 1/2⌋`. -/
def jsRound (v : ℚ) : ℕ := (⌊v + 1 / 2⌋).toNat

/-- Embedding of the histogram build of `otsuThreshold` (App.jsx lines
363-364): `hist[Math.round(v)]++` over the luminance array. -/
def histogram (gray : List ℚ) (i : ℕ) : ℕ := gray.countP (fun v => decide (jsRound v = i))

/-- Number of luminances rounding below `n`: the prefix sums of the histogram. -/
def histBelow (gray : List ℚ) (n : ℕ) : ℕ := ∑ i ∈ Finset.range n, histogram gray i

/-- Prefix sum of `i * hist[i]`, in the source's running variables `sum` (at
`n = 256`) and `sumB` (App.jsx lines 366-367, 374). -/
def iHistBelow (gray : List ℚ) (n : ℕ) : ℚ :=
  ∑ i ∈ Finset.range n, (i : ℚ) * (histogram gray i : ℚ)

/-- Background weight at candidate split `t` (bins `0..t` inclusive). -/
def wBspec (gray : List ℚ) (t : ℕ) : ℚ := (histBelow gray (t + 1) : ℚ)

/-- Background mass of `i * hist[i]` at candidate split `t`. -/
def sumBspec (gray : List ℚ) (t : ℕ) : ℚ := iHistBelow gray (t + 1)

/-- Between-class variance `wB · wF · (mB − mF)²` at candidate split `t`,
taken as 0 when either class is empty (the source skips those candidates). -/
def betweenVar (gray : List ℚ) (t : ℕ) : ℚ :=
  let wB := wBspec gray t
  let wF := (gray.length : ℚ) - wB
  if wB = 0 ∨ wF = 0 then 0
  else
    let mB := sumBspec gray t / wB
    let mF := (iHistBelow gray 256 - sumBspec gray t) / wF
    wB * wF * (mB - mF) * (mB - mF)

/-- State of the `otsuThreshold` scan loop (App.jsx line 368); `done` models
the `break` on an empty foreground class (line 373). -/
structure OtsuState where
  sumB : ℚ
  wB : ℚ
  maxV : ℚ
  thresh : ℕ
  done : Bool

/-- Embedding of one iteration of the `otsuThreshold` loop (App.jsx lines
369-379): `continue` on empty background, `break` on empty foreground, update
the running maximum on a strict increase. -/
def otsuStep (hist : ℕ → ℕ) (total sum : ℚ) (st : OtsuState) (i : ℕ) : OtsuState :=
  if st.done then st
  else
    let wB := st.wB + (hist i : ℚ)
    if wB = 0 then { st with wB := wB }
    else
      let wF := total - wB
      if wF = 0 then { st with wB := wB, done := true }
      else
        let sumB := st.sumB + (i : ℚ) * (hist i : ℚ)
        let mB := sumB / wB
        let mF := (sum - sumB) / wF
        let between := wB * wF * (mB - mF) * (mB - mF)
        if st.maxV < between then ⟨sumB, wB, between, i, false⟩
        else { st with sumB := sumB, wB := wB }

/-- Embedding of `otsuThreshold` (App.jsx lines 362-381). -/
def otsuThreshold (gray : List ℚ) : ℕ :=
  ((List.range 256).foldl
    (otsuStep (histogram gray) (gray.length : ℚ) (iHistBelow gray 256))
    ⟨0, 0, 0, 0, false⟩).thresh

/-- Embedding of the `otsu` case of `generatePattern` (App.jsx lines 409-412):
simple threshold at the computed split. -/
def otsuPattern (gray : List ℚ) : List ℕ :=
  gray.map (fun g => if g < (otsuThreshold gray : ℚ) then 1 else 0)

/-- Counting rounds below `n + 1` splits into below `n` and exactly `n`. -/
theorem countP_round_lt_succ (gray : List ℚ) (n : ℕ) :
    gray.countP (fun v => decide (jsRound v < n + 1))
      = gray.countP (fun v => decide (jsRound v < n))
        + gray.countP (fun v => decide (jsRound v = n)) := by
  induction gray with
  | nil => rfl
  | cons a t ih =>
    simp only [List.countP_cons, ih]
    by_cases h1 : jsRound a < n
    · simp [h1, Nat.lt_succ_of_lt h1, Nat.ne_of_lt h1]
      omega
    · by_cases h2 : jsRound a = n
      · simp [h2]
        omega
      · have h3 : ¬ jsRound a < n + 1 := by omega
        simp [h1, h2, h3]

/-- The histogram prefix sums count the luminances rounding below `n`. -/
theorem histBelow_eq_countP (gray : List ℚ) :
    ∀ n, histBelow gray n = gray.countP (fun v => decide (jsRound v < n)) := by
  intro n
  induction n with
  | zero => simp [histBelow]
  | succ k ih =>
    unfold histBelow at ih ⊢
    rw [Finset.sum_range_succ, ih, countP_round_lt_succ]
    rfl

/-- Histogram prefix sums never exceed the number of luminances. -/
theorem histBelow_le_length (gray : List ℚ) (n : ℕ) :
    histBelow gray n ≤ gray.length := by
  rw [histBelow_eq_countP]
  exact List.countP_le_length _

/-- Histogram prefix sums are monotone. -/
theorem histBelow_mono (gray : List ℚ) {m n : ℕ} (h : m ≤ n) :
    histBelow gray m ≤ histBelow gray n := by
  unfold histBelow
  exact Finset.sum_le_sum_of_subset (Finset.range_subset.mpr h)

/-- Between-class variance is never negative. -/
theorem betweenVar_nonneg (gray : List ℚ) (t : ℕ) : 0 ≤ betweenVar gray t := by
  unfold betweenVar
  by_cases hc : wBspec gray t = 0 ∨ (gray.length : ℚ) - wBspec gray t = 0
  · simp [hc]
  · simp only [hc, if_false]
    push_neg at hc
    have hwB : 0 ≤ wBspec gray t := by
      unfold wBspec; positivity
    have hwF : 0 ≤ (gray.length : ℚ) - wBspec gray t := by
      unfold wBspec
      have := histBelow_le_length gray (t + 1)
      have : ((histBelow gray (t + 1) : ℕ) : ℚ) ≤ (gray.length : ℚ) := by
        exact_mod_cast this
      linarith
    have hsq := mul_self_nonneg (sumBspec gray t / wBspec gray t
      - (iHistBelow gray 256 - sumBspec gray t) / ((gray.length : ℚ) - wBspec gray t))
    calc (0 : ℚ) ≤ (wBspec gray t * ((gray.length : ℚ) - wBspec gray t))
          * ((sumBspec gray t / wBspec gray t
            - (iHistBelow gray 256 - sumBspec gray t) / ((gray.length : ℚ) - wBspec gray t))
          * (sumBspec gray t / wBspec gray t
            - (iHistBelow gray 256 - sumBspec gray t) / ((gray.length : ℚ) - wBspec gray t))) :=
        mul_nonneg (mul_nonneg hwB hwF) hsq
      _ = _ := by ring

/-- Once the background holds every sample, all later variances vanish. -/
theorem betweenVar_eq_zero_of_full (gray : List ℚ) (n t : ℕ)
    (hfull : histBelow gray (n + 1) = gray.length) (ht : n ≤ t) :
    betweenVar gray t = 0 := by
  have h1 : histBelow gray (t + 1) = gray.length := by
    have hmono := histBelow_mono gray (show n + 1 ≤ t + 1 by omega)
    have hle := histBelow_le_length gray (t + 1)
    omega
  unfold betweenVar
  have : (gray.length : ℚ) - wBspec gray t = 0 := by
    unfold wBspec
    rw [h1]
    ring
  simp [this]

/-- Unfolding of a histogram prefix sum, one bin at a time. -/
theorem histBelow_succ (gray : List ℚ) (n : ℕ) :
    histBelow gray (n + 1) = histBelow gray n + histogram gray n :=
  Finset.sum_range_succ _ n

/-- Unfolding of the `i * hist[i]` prefix sum, one bin at a time. -/
theorem iHistBelow_succ (gray : List ℚ) (n : ℕ) :
    iHistBelow gray (n + 1) = iHistBelow gray n + (n : ℚ) * (histogram gray n : ℚ) :=
  Finset.sum_range_succ _ n

/-- Prefix of the Otsu scan: state after the candidates `0 .. n-1`. -/
def otsuFold (gray : List ℚ) (n : ℕ) : OtsuState :=
  (List.range n).foldl
    (otsuStep (histogram gray) (gray.length : ℚ) (iHistBelow gray 256)) ⟨0, 0, 0, 0, false⟩

/-- Invariant of the Otsu scan after processing candidates `0 .. n-1`: the
running maximum dominates every processed variance (every variance at all,
once the loop has broken), the recorded threshold is the first maximizer, and
while the loop is live its running sums agree with the histogram prefix sums. -/
def OtsuInv (gray : List ℚ) (n : ℕ) (st : OtsuState) : Prop :=
  0 ≤ st.maxV ∧
  ((st.maxV = 0 ∧ st.thresh = 0) ∨
    (st.thresh < n ∧ betweenVar gray st.thresh = st.maxV ∧
      ∀ t < st.thresh, betweenVar gray t < st.maxV)) ∧
  (st.done = true → ∀ t, betweenVar gray t ≤ st.maxV) ∧
  (st.done = false → ((∀ t < n, betweenVar gray t ≤ st.maxV)
    ∧ st.wB = (histBelow gray n : ℚ) ∧ st.sumB = iHistBelow gray n))

/-- Closed form of the between-class variance when both classes are nonempty. -/
theorem betweenVar_formula (gray : List ℚ) (n : ℕ)
    (hw0 : wBspec gray n ≠ 0) (hwF : (gray.length : ℚ) - wBspec gray n ≠ 0) :
    betweenVar gray n
      = wBspec gray n * ((gray.length : ℚ) - wBspec gray n)
        * (sumBspec gray n / wBspec gray n
          - (iHistBelow gray 256 - sumBspec gray n) / ((gray.length : ℚ) - wBspec gray n))
        * (sumBspec gray n / wBspec gray n
          - (iHistBelow gray 256 - sumBspec gray n) / ((gray.length : ℚ) - wBspec gray n)) := by
  unfold betweenVar
  have hc : ¬ (wBspec gray n = 0 ∨ (gray.length : ℚ) - wBspec gray n = 0) := by
    push_neg
    exact ⟨hw0, hwF⟩
  simp only [if_neg hc]

/-- One Otsu iteration preserves the scan invariant. -/
theorem otsuStep_inv (gray : List ℚ) (n : ℕ) (st : OtsuState)
    (h : OtsuInv gray n st) :
    OtsuInv gray (n + 1)
      (otsuStep (histogram gray) (gray.length : ℚ) (iHistBelow gray 256) st n) := by
  obtain ⟨hmax0, hargmax, hdoneAll, hlive⟩ := h
  have hargmax' : (st.maxV = 0 ∧ st.thresh = 0) ∨
      (st.thresh < n + 1 ∧ betweenVar gray st.thresh = st.maxV ∧
        ∀ t < st.thresh, betweenVar gray t < st.maxV) := by
    rcases hargmax with hl | ⟨h1, h2, h3⟩
    · exact Or.inl hl
    · exact Or.inr ⟨by omega, h2, h3⟩
  by_cases hdone : st.done = true
  · simp only [otsuStep, if_pos hdone]
    refine ⟨hmax0, hargmax', hdoneAll, ?_⟩
    intro hf
    rw [hdone] at hf
    exact Bool.noConfusion hf
  · have hnd : st.done = false := by
      cases hb : st.done
      · rfl
      · exact absurd hb hdone
    obtain ⟨hbound, hwB, hsumB⟩ := hlive hnd
    have hwBsum : st.wB + (histogram gray n : ℚ) = (histBelow gray (n + 1) : ℚ) := by
      rw [hwB, histBelow_succ]
      push_cast
      ring
    simp only [otsuStep, if_neg hdone]
    split_ifs with hw0 hwF hlt
    · -- empty background: `continue`, only `wB` advances
      have hwb0 : wBspec gray n = 0 := by
        unfold wBspec
        rw [← hwBsum]
        exact hw0
      have hVn : betweenVar gray n = 0 := by
        unfold betweenVar
        simp [hwb0]
      have hhist0 : (histogram gray n : ℚ) = 0 := by
        have h1 : (0 : ℚ) ≤ (histBelow gray n : ℚ) := by positivity
        have h2 : (0 : ℚ) ≤ (histogram gray n : ℚ) := by positivity
        rw [hwB] at hw0
        linarith
      refine ⟨hmax0, hargmax', ?_, ?_⟩
      · intro hf
        exact absurd hf hdone
      · intro _
        refine ⟨?_, hwBsum, ?_⟩
        · intro t ht
          by_cases htn : t < n
          · exact hbound t htn
          · have hteq : t = n := by omega
            rw [hteq, hVn]
            exact hmax0
        · rw [iHistBelow_succ, hsumB, hhist0]
          ring
    · -- empty foreground: `break`
      have hfull : histBelow gray (n + 1) = gray.length := by
        have hcast : ((histBelow gray (n + 1) : ℕ) : ℚ) = ((gray.length : ℕ) : ℚ) := by
          rw [← hwBsum]
          linarith
        exact_mod_cast hcast
      refine ⟨hmax0, hargmax', ?_, ?_⟩
      · intro _ t
        by_cases htn : t < n
        · exact hbound t htn
        · rw [betweenVar_eq_zero_of_full gray n t hfull (by omega)]
          exact hmax0
      · intro hf
        exact Bool.noConfusion hf
    · -- live candidate with a new strict maximum
      have hwB' : st.wB + (histogram gray n : ℚ) = wBspec gray n := hwBsum
      have hsumB' : st.sumB + (n : ℚ) * (histogram gray n : ℚ) = sumBspec gray n := by
        rw [hsumB, sumBspec, iHistBelow_succ]
      have hw0' : wBspec gray n ≠ 0 := by
        rw [← hwB']
        exact hw0
      have hwF' : (gray.length : ℚ) - wBspec gray n ≠ 0 := by
        rw [← hwB']
        exact hwF
      rw [hwB', hsumB'] at hlt ⊢
      rw [← betweenVar_formula gray n hw0' hwF'] at hlt ⊢
      refine ⟨le_of_lt (lt_of_le_of_lt hmax0 hlt), ?_, ?_, ?_⟩
      · refine Or.inr ⟨Nat.lt_succ_self n, rfl, ?_⟩
        intro t ht
        exact lt_of_le_of_lt (hbound t ht) hlt
      · intro hf
        exact Bool.noConfusion hf
      · intro _
        refine ⟨?_, ?_, ?_⟩
        · intro t ht
          by_cases htn : t < n
          · exact le_of_lt (lt_of_le_of_lt (hbound t htn) hlt)
          · have hteq : t = n := by omega
            rw [hteq]
        · rfl
        · rfl
    · -- live candidate without improvement
      have hwB' : st.wB + (histogram gray n : ℚ) = wBspec gray n := hwBsum
      have hsumB' : st.sumB + (n : ℚ) * (histogram gray n : ℚ) = sumBspec gray n := by
        rw [hsumB, sumBspec, iHistBelow_succ]
      have hw0' : wBspec gray n ≠ 0 := by
        rw [← hwB']
        exact hw0
      have hwF' : (gray.length : ℚ) - wBspec gray n ≠ 0 := by
        rw [← hwB']
        exact hwF
      rw [hwB', hsumB'] at hlt ⊢
      rw [← betweenVar_formula gray n hw0' hwF'] at hlt
      refine ⟨hmax0, hargmax', ?_, ?_⟩
      · intro hf
        exact absurd hf hdone
      · intro _
        refine ⟨?_, ?_, ?_⟩
        · intro t ht
          by_cases htn : t < n
          · exact hbound t htn
          · have hteq : t = n := by omega
            rw [hteq]
            exact le_of_not_lt hlt
        · rfl
        · rfl

/-- The scan invariant holds after any number of iterations. -/
theorem otsuFold_inv (gray : List ℚ) : ∀ n, OtsuInv gray n (otsuFold gray n) := by
  intro n
  induction n with
  | zero =>
    refine ⟨le_refl 0, Or.inl ⟨rfl, rfl⟩, ?_, ?_⟩
    · intro hf
      exact Bool.noConfusion hf
    · intro _
      refine ⟨?_, ?_, ?_⟩
      · intro t ht
        omega
      · show (0 : ℚ) = (histBelow gray 0 : ℚ)
        simp [histBelow]
      · show (0 : ℚ) = iHistBelow gray 0
        simp [iHistBelow]
  | succ k ih =>
    have hfold : otsuFold gray (k + 1)
        = otsuStep (histogram gray) (gray.length : ℚ) (iHistBelow gray 256) (otsuFold gray k) k := by
      unfold otsuFold
      rw [List.range_succ, List.foldl_append]
      rfl
    rw [hfold]
    exact otsuStep_inv gray k (otsuFold gray k) ih

/-- Claim C3: the split chosen by `otsuThreshold` lies in `[0, 255]`, maximizes the
between-class variance over all candidates, is the first maximizer (every
earlier candidate has strictly smaller variance), and the `otsu` case applies
it as a strict simple threshold. -/
theorem otsuThreshold_argmax (gray : List ℚ) :
    otsuThreshold gray < 256
    ∧ (∀ s, s < 256 → betweenVar gray s ≤ betweenVar gray (otsuThreshold gray))
    ∧ (∀ s, s < otsuThreshold gray →
        betweenVar gray s < betweenVar gray (otsuThreshold gray))
    ∧ otsuPattern gray
        = gray.map (fun g => if g < (otsuThreshold gray : ℚ) then 1 else 0) := by
  have hinv := otsuFold_inv gray 256
  obtain ⟨hmax0, hargmax, hdoneAll, hlive⟩ := hinv
  have hthr : otsuThreshold gray = (otsuFold gray 256).thresh := rfl
  have hboundAll : ∀ t < 256, betweenVar gray t ≤ (otsuFold gray 256).maxV := by
    intro t ht
    cases hb : (otsuFold gray 256).done
    · exact (hlive hb).1 t ht
    · exact hdoneAll hb t
  have hVthr : betweenVar gray (otsuFold gray 256).thresh = (otsuFold gray 256).maxV := by
    rcases hargmax with ⟨hm0, hth0⟩ | ⟨_, h2, _⟩
    · rw [hth0, hm0]
      have h1 := hboundAll 0 (by omega)
      have h2 := betweenVar_nonneg gray 0
      rw [hm0] at h1
      linarith
    · exact h2
  refine ⟨?_, ?_, ?_, rfl⟩
  · rcases hargmax with ⟨_, hth0⟩ | ⟨h1, _, _⟩
    · rw [hthr, hth0]; omega
    · rw [hthr]; omega
  · intro s hs
    rw [hthr, hVthr]
    exact hboundAll s hs
  · intro s hs
    rw [hthr] at hs ⊢
    rw [hVthr]
    rcases hargmax with ⟨_, hth0⟩ | ⟨_, _, h3⟩
    · rw [hth0] at hs; omega
    · exact h3 s hs

/-- Witness for `otsuThreshold_argmax` on a concrete two-level field. -/
theorem otsuThreshold_argmax_w :
    betweenVar [(10 : ℚ), 10, 200] 0
      ≤ betweenVar [(10 : ℚ), 10, 200] (otsuThreshold [(10 : ℚ), 10, 200]) :=
  (otsuThreshold_argmax [(10 : ℚ), 10, 200]).2.1 0 (by omega)

/-- Embedding of `generatePattern`'s algorithm dispatch, inversion and
assembly (App.jsx lines 405-512): the `switch (algorithm)` with its six named
cases; any other identifier falls to the `default` simple-threshold case. -/
def generatePattern (algorithm : String) (w h : ℕ)
    (threshold ditherStrength edgeSensitivity : ℚ) (adaptiveBlockSize : ℕ)
    (invertColors : Bool) (gray : List ℚ) : List (List ℕ) :=
  let result :=
    if algorithm = "otsu" then otsuPattern gray
    else if algorithm = "floydSteinberg" then
      fsPattern w h threshold (ditherStrength / 100) gray
    else if algorithm = "atkinson" then
      atkinsonPattern w h threshold (ditherStrength / 100) gray
    else if algorithm = "ordered" then orderedPattern w threshold ditherStrength gray
    else if algorithm = "sobel" then sobelPattern w h edgeSensitivity gray
    else if algorithm = "adaptive" then
      adaptivePattern w h threshold adaptiveBlockSize gray
    else simplePattern threshold gray
  assemble w h (applyInvert invertColors result)

/-- Counterexample for claim C9: on an unknown algorithm identifier the pipeline does
not fail — it silently produces the `default`-case simple-threshold grid, here
the 2×2 checkerboard, identical to what the simple-threshold algorithm
yields. -/
theorem generatePattern_unknown_cex :
    generatePattern "notAnAlgorithm" 2 2 128 0 0 3 false [(0 : ℚ), 255, 255, 0]
      = assemble 2 2 (applyInvert false (simplePattern 128 [(0 : ℚ), 255, 255, 0]))
    ∧ generatePattern "notAnAlgorithm" 2 2 128 0 0 3 false [(0 : ℚ), 255, 255, 0]
      = [[1, 0], [0, 1]] := by
  constructor
  · rfl
  · decide

/-- Claim C9 as amended: for every identifier outside the six named switch cases the
pipeline silently substitutes the default simple-threshold algorithm; no
failure result exists. -/
theorem generatePattern_unknown_default (algorithm : String) (w h : ℕ)
    (threshold ditherStrength edgeSensitivity : ℚ) (adaptiveBlockSize : ℕ)
    (invertColors : Bool) (gray : List ℚ)
    (halg : algorithm ∉ (["otsu", "floydSteinberg", "atkinson", "ordered",
      "sobel", "adaptive"] : List String)) :
    generatePattern algorithm w h threshold ditherStrength edgeSensitivity
        adaptiveBlockSize invertColors gray
      = assemble w h (applyInvert invertColors (simplePattern threshold gray)) := by
  simp only [List.mem_cons, List.not_mem_nil, or_false] at halg
  push_neg at halg
  obtain ⟨h1, h2, h3, h4, h5, h6⟩ := halg
  unfold generatePattern
  rw [if_neg h1, if_neg h2, if_neg h3, if_neg h4, if_neg h5, if_neg h6]

/-- Witness for `generatePattern_unknown_default` at a concrete identifier. -/
theorem generatePattern_unknown_default_w :
    generatePattern "bogus" 1 1 128 0 0 3 false [(0 : ℚ)]
      = assemble 1 1 (applyInvert false (simplePattern 128 [(0 : ℚ)])) :=
  generatePattern_unknown_default "bogus" 1 1 128 0 0 3 false [(0 : ℚ)] (by decide)

/-- Embedding of the serialization of `downloadCSV` (App.jsx line 522):
`pattern.map(row => row.map(c => c === 1 ? 'X' : 'O').join(',')).join('\n')`. -/
def patternCSV (pattern : List (List ℕ)) : String :=
  String.intercalate "\n" (pattern.map (fun row =>
    String.intercalate "," (row.map (fun c => if c = 1 then "X" else "O"))))

/-- Embedding of the download filename (App.jsx line 526):
`crochet_pattern_${gridWidth}x${gridHeight}.csv`. -/
def downloadFilename (gridWidth gridHeight : ℕ) : String :=
  "crochet_pattern_" ++ toString gridWidth ++ "x" ++ toString gridHeight ++ ".csv"

/-- Counterexample for claim C10: the exporter's filename is
`crochet_pattern_{w}x{h}.csv`, not the bare `pattern_{width}x{height}`. -/
theorem downloadFilename_cex :
    downloadFilename 4 4 = "crochet_pattern_4x4.csv"
    ∧ downloadFilename 4 4 ≠ "pattern_4x4" := by
  constructor
  · rfl
  · decide

/-- Claim C10 as amended: the exporter serializes the grid row-major with `1 → "X"`,
`0 → "O"`, comma-separated columns and newline-separated rows — shown on the
2×2 checkerboard produced by the pipeline itself — and names the file
`crochet_pattern_{width}x{height}.csv`. -/
theorem downloadCSV_serialization :
    (∀ w h : ℕ, downloadFilename w h
      = "crochet_pattern_" ++ toString w ++ "x" ++ toString h ++ ".csv")
    ∧ patternCSV (generatePattern "threshold" 2 2 128 0 0 3 false
        [(0 : ℚ), 255, 255, 0]) = "X,O" ++ "\n" ++ "O,X"
    ∧ patternCSV [[1, 0, 1], [0, 1, 0]] = "X,O,X" ++ "\n" ++ "O,X,O" := by
  refine ⟨fun w h => rfl, by decide, by decide⟩

end Crochet
